import Mathlib

/-!
Verification of the filename sanitizer and helper functions of
`ai_rename.py` (smart-rename).  The Python functions `sanitize_filename`,
`format_examples` and `get_current_pricing` are embedded shallowly as
total computable Lean functions over `String` / `List Char`, and the
spec's claims about them are settled as theorems below.
-/

namespace SmartRename

/-- Python `str.isspace` / regex `\s` character class (the Unicode
whitespace code points recognised by CPython, used both by `str.strip()`
and by the `\s` class in `re.sub(r'\s+', ' ', ...)`). -/
def isPySpace (c : Char) : Bool :=
  (9 ≤ c.toNat && c.toNat ≤ 13) || c.toNat == 32 ||
  (28 ≤ c.toNat && c.toNat ≤ 31) || c.toNat == 0x85 || c.toNat == 0xA0 ||
  c.toNat == 0x1680 || (0x2000 ≤ c.toNat && c.toNat ≤ 0x200A) ||
  c.toNat == 0x2028 || c.toNat == 0x2029 || c.toNat == 0x202F ||
  c.toNat == 0x205F || c.toNat == 0x3000

/-- Python regex `\w` (word characters).  Exact on the ASCII range
(`[a-zA-Z0-9_]`).  Python additionally counts non-ASCII Unicode letters
and digits as word characters; here every non-ASCII non-whitespace
character is modelled as a word character (a conservative
over-approximation of `\w`: every character the real program can keep is
kept by the model; the claims under verification never distinguish
non-ASCII word characters from other non-ASCII non-space characters). -/
def isWordChar (c : Char) : Bool :=
  (0x61 ≤ c.toNat && c.toNat ≤ 0x7A) || (0x41 ≤ c.toNat && c.toNat ≤ 0x5A) ||
  (0x30 ≤ c.toNat && c.toNat ≤ 0x39) || c.toNat == 0x5F ||
  (0x7F < c.toNat && !(isPySpace c))

/-- The character class kept by `re.sub(r'[^\w\s\.\-\(\)\[\]]+', '_', filename)`:
word characters, whitespace, and the literals `.`, `-`, `(`, `)`, `[`, `]`. -/
def isKept (c : Char) : Bool :=
  isWordChar c || isPySpace c || c == '.' || c == '-' ||
  c == '(' || c == ')' || c == '[' || c == ']'

/-- The boundary characters stripped by the final `filename.strip('._- ')`. -/
def stripBoundaryChar (c : Char) : Bool :=
  c == '.' || c == '_' || c == '-' || c == ' '

/-- Python `str.strip()` on a character list: drop `isPySpace` characters
from both ends. -/
def pyStrip (l : List Char) : List Char :=
  ((l.dropWhile isPySpace).reverse.dropWhile isPySpace).reverse

/-- Python `os.path.basename` (POSIX): everything after the last `/`. -/
def basename (l : List Char) : List Char :=
  (l.reverse.takeWhile (fun c => !(c == '/'))).reverse

/-- Python `filename.replace('/', '_').replace('\\', '_')`. -/
def replaceSeps (l : List Char) : List Char :=
  (l.map (fun c => if c = '/' then '_' else c)).map
    (fun c => if c = '\\' then '_' else c)

/-- Worker for `re.sub(<class>+, <single char>, s)`: each maximal run of
characters satisfying `p` is replaced by the single character `r`;
`inRun` records whether the previous character was part of a run. -/
def collapseAux (p : Char → Bool) (r : Char) : Bool → List Char → List Char
  | _, [] => []
  | true, c :: cs =>
    if p c then collapseAux p r true cs
    else c :: collapseAux p r false cs
  | false, c :: cs =>
    if p c then r :: collapseAux p r true cs
    else c :: collapseAux p r false cs

/-- `re.sub` of a one-character-class `+` pattern by a single character. -/
def collapseRuns (p : Char → Bool) (r : Char) (l : List Char) : List Char :=
  collapseAux p r false l

/-- `re.sub(r'[^\w\s\.\-\(\)\[\]]+', '_', filename)`. -/
def replaceBad (l : List Char) : List Char :=
  collapseRuns (fun c => !(isKept c)) '_' l

/-- `re.sub(r'\s+', ' ', filename)`. -/
def collapseSpaces (l : List Char) : List Char :=
  collapseRuns isPySpace ' ' l

/-- `re.sub(r'_+', '_', filename)`. -/
def collapseUnderscores (l : List Char) : List Char :=
  collapseRuns (fun c => c == '_') '_' l

/-- Python `filename.lstrip('.')`. -/
def lstripDots (l : List Char) : List Char :=
  l.dropWhile (fun c => c == '.')

/-- Python `filename.upper()` restricted to ASCII case mapping (the
reserved-name comparison only involves ASCII strings). -/
def toUpperL (l : List Char) : List Char :=
  l.map Char.toUpper

/-- The Windows reserved device names of `sanitize_filename`. -/
def RESERVED : List (List Char) :=
  ["CON", "PRN", "AUX", "NUL",
   "COM1", "COM2", "COM3", "COM4", "COM5", "COM6", "COM7", "COM8", "COM9",
   "LPT1", "LPT2", "LPT3", "LPT4", "LPT5", "LPT6", "LPT7", "LPT8",
   "LPT9"].map String.data

/-- Python `filename.upper() in reserved_names`. -/
def isReserved (l : List Char) : Bool :=
  decide (toUpperL l ∈ RESERVED)

/-- The characters of the `"file_"` marker prepended to reserved names. -/
def filePre : List Char := "file_".data

/-- The reserved-name handling step: `if name_upper in reserved_names:
filename = f"file_\x7bfilename\x7d"`. -/
def reservedStep (l : List Char) : List Char :=
  if isReserved l then filePre ++ l else l

/-- `if len(filename) > 150: filename = filename[:150]`. -/
def truncate150 (l : List Char) : List Char :=
  l.take 150

/-- The final `filename.strip('._- ')`. -/
def stripBoundary (l : List Char) : List Char :=
  ((l.dropWhile stripBoundaryChar).reverse.dropWhile stripBoundaryChar).reverse

/-- The sentinel `"unnamed_file"`. -/
def UNNAMED : List Char := "unnamed_file".data

/-- Steps 2-7 of the pipeline: strip, basename, separator replacement,
metacharacter replacement, whitespace and underscore collapapsing, and
removal of leading dots. -/
def stage7 (l : List Char) : List Char :=
  lstripDots (collapseUnderscores (collapseSpaces (replaceBad
    (replaceSeps (basename (pyStrip l))))))

/-- The value of `filename` right after the reserved-name check, before
truncation and the final boundary strip. -/
def preTruncate (l : List Char) : List Char :=
  reservedStep (stage7 l)

/-- `sanitize_filename` of `ai_rename.py` on a character list, with the
three early returns of the sentinel. -/
def sanitizeList (l : List Char) : List Char :=
  if l = [] then UNNAMED
  else if stage7 l = [] then UNNAMED
  else if stripBoundary (truncate150 (preTruncate l)) = [] then UNNAMED
  else stripBoundary (truncate150 (preTruncate l))

/-- `sanitize_filename` of `ai_rename.py` (`src/ai_rename.py` lines
90-155). -/
def sanitize_filename (s : String) : String :=
  ⟨sanitizeList s.data⟩

/-- The list has no two adjacent characters that both satisfy `q`
(used to state the no-consecutive-spaces / no-consecutive-underscores
invariants). -/
def noTwoP (q : Char → Bool) : List Char → Bool
  | [] => true
  | c :: cs => cs.head?.all (fun d => !(q c && q d)) && noTwoP q cs

/-- A per-model pricing entry (USD per 1000 tokens), as a rational. -/
structure ModelPricing where
  input : ℚ
  output : ℚ
deriving DecidableEq

/-- The static pricing table `PRICING_CONFIG` of `ai_rename.py`. -/
def PRICING_CONFIG : List (String × ModelPricing) :=
  [("gpt-3.5-turbo", ⟨15 / 10000, 2 / 1000⟩),
   ("gpt-4", ⟨3 / 100, 6 / 100⟩),
   ("gpt-4-turbo", ⟨1 / 100, 3 / 100⟩),
   ("gpt-4o", ⟨5 / 1000, 15 / 1000⟩),
   ("gpt-4o-mini", ⟨15 / 100000, 6 / 10000⟩)]

/-- The dictionary returned by `get_current_pricing`. -/
structure CostEstimate where
  input : ℚ
  output : ℚ
  input_cost : ℚ
  output_cost : ℚ
  total_cost : ℚ
  source : String
deriving DecidableEq

/-- Behaviour of the external `tokencost` library in one call to
`get_current_pricing`: the `import` fails, or the two cost calculations
raise, or they return a prompt cost and a completion cost. -/
inductive TokencostOutcome where
  | importError : TokencostOutcome
  | raises : String → TokencostOutcome
  | succeeds : ℚ → ℚ → TokencostOutcome
deriving DecidableEq

/-- `PRICING_CONFIG.get(model_name, PRICING_CONFIG.get("gpt-4o-mini"))`.
The `"gpt-4o-mini"` entry is present in the table, so the final default
`⟨0, 0⟩` is never reached. -/
def lookupPricing (model_name : String) : ModelPricing :=
  match PRICING_CONFIG.lookup model_name with
  | some p => p
  | none =>
    match PRICING_CONFIG.lookup "gpt-4o-mini" with
    | some p => p
    | none => ⟨0, 0⟩

/-- The static-table branch of `get_current_pricing`: per-1000-token
rates from the config, costs `tokens / 1000 * rate`, total the sum. -/
def configEstimate (model_name : String) (prompt_tokens completion_tokens : ℕ)
    (source : String) : CostEstimate :=
  let pricing := lookupPricing model_name
  let input_cost := ((prompt_tokens : ℚ) / 1000) * pricing.input
  let output_cost := ((completion_tokens : ℚ) / 1000) * pricing.output
  ⟨pricing.input, pricing.output, input_cost, output_cost,
   input_cost + output_cost, source⟩

/-- `get_current_pricing` of `ai_rename.py` (lines 22-74).  `texts`
models the optional `prompt_text` / `completion_text` pair; `tc` models
the behaviour of the external `tokencost` library.  An `ImportError`
falls back to the config immediately; an exception raised by the cost
calculations (which are only invoked when both texts are given) is
caught and also falls back to the config. -/
def get_current_pricing (model_name : String) (prompt_tokens completion_tokens : ℕ)
    (texts : Option (String × String)) (tc : TokencostOutcome) : CostEstimate :=
  match tc with
  | TokencostOutcome.importError =>
    configEstimate model_name prompt_tokens completion_tokens "config_fallback"
  | TokencostOutcome.raises _ =>
    match texts with
    | some _ =>
      configEstimate model_name prompt_tokens completion_tokens "config_fallback"
    | none =>
      configEstimate model_name prompt_tokens completion_tokens
        "config_with_tokencost_available"
  | TokencostOutcome.succeeds promptCost completionCost =>
    match texts with
    | some _ =>
      ⟨if 0 < prompt_tokens then promptCost / ((prompt_tokens : ℚ) / 1000) else 0,
       if 0 < completion_tokens then completionCost / ((completion_tokens : ℚ) / 1000) else 0,
       promptCost, completionCost, promptCost + completionCost, "tokencost"⟩
    | none =>
      configEstimate model_name prompt_tokens completion_tokens
        "config_with_tokencost_available"

/-- Python `str.strip()` on strings. -/
def pyStripS (s : String) : String :=
  ⟨pyStrip s.data⟩

/-- The four-character separator `" -> "` occurs at the very start of
the character list. -/
def arrowAt : List Char → Bool
  | c1 :: c2 :: c3 :: c4 :: _ => c1 == ' ' && c2 == '-' && c3 == '>' && c4 == ' '
  | _ => false

/-- Python `" -> " in line`: the four-character separator occurs as a
contiguous substring. -/
def hasArrow : List Char → Bool
  | [] => false
  | c :: cs => arrowAt (c :: cs) || hasArrow cs

/-- The header line of the examples block. -/
def HEADER : String := "\nPrevious rename examples for consistency:\n"

/-- One formatted example line: two spaces, the stripped line, newline. -/
def exampleLine (line : String) : String := "  " ++ pyStripS line ++ "\n"

/-- `format_examples` of `ai_rename.py` (lines 76-88). -/
def format_examples (examples_str : String) : String :=
  if examples_str = "" ∨ pyStripS examples_str = "" then ""
  else
    ((pyStripS examples_str).splitOn "\n").foldl
      (fun acc line =>
        if (!(pyStripS line == "")) && hasArrow line.data then acc ++ exampleLine line
        else acc)
      HEADER

/-- Concatenation of a list of strings (used to state the shape of the
examples block). -/
def joinStrings : List String → String
  | [] => ""
  | x :: xs => x ++ joinStrings xs

/-! ### Generic lemmas about the list combinators -/

theorem head?_dropWhile_false {p : Char → Bool} {l : List Char} {c : Char}
    (h : (l.dropWhile p).head? = some c) : p c = false := by
  induction l with
  | nil => simp at h
  | cons a t ih =>
    by_cases hp : p a
    · rw [List.dropWhile_cons_of_pos hp] at h
      exact ih h
    · rw [List.dropWhile_cons_of_neg hp] at h
      simp only [List.head?_cons, Option.some.injEq] at h
      subst h
      simpa using hp

theorem dropWhile_eq_self_of_head {p : Char → Bool} {l : List Char}
    (h : ∀ c, l.head? = some c → p c = false) : l.dropWhile p = l := by
  cases l with
  | nil => rfl
  | cons a t =>
    exact List.dropWhile_cons_of_neg (by simp [h a rfl])

theorem dropWhile_eq_nil_of_all {p : Char → Bool} {l : List Char}
    (h : ∀ c ∈ l, p c = true) : l.dropWhile p = [] := by
  induction l with
  | nil => rfl
  | cons a t ih =>
    rw [List.dropWhile_cons_of_pos (h a (List.mem_cons_self a t))]
    exact ih fun c hc => h c (List.mem_cons_of_mem a hc)

theorem takeWhile_eq_self_of_all {p : Char → Bool} {l : List Char}
    (h : ∀ c ∈ l, p c = true) : l.takeWhile p = l := by
  induction l with
  | nil => rfl
  | cons a t ih =>
    rw [List.takeWhile_cons_of_pos (h a (List.mem_cons_self a t))]
    exact congrArg (a :: ·) (ih fun c hc => h c (List.mem_cons_of_mem a hc))

theorem getLast?_dropWhile {p : Char → Bool} {l : List Char}
    (h : l.dropWhile p ≠ []) : (l.dropWhile p).getLast? = l.getLast? := by
  induction l with
  | nil => simp at h
  | cons a t ih =>
    by_cases hp : p a
    · rw [List.dropWhile_cons_of_pos hp] at h ⊢
      cases t with
      | nil => simp at h
      | cons b u => rw [ih h, List.getLast?_cons_cons]
    · rw [List.dropWhile_cons_of_neg hp]

theorem mem_of_head? {l : List Char} {c : Char} (h : l.head? = some c) : c ∈ l := by
  cases l with
  | nil => simp at h
  | cons a t =>
    simp only [List.head?_cons, Option.some.injEq] at h
    exact h ▸ List.mem_cons_self a t

theorem mem_of_getLast? {l : List Char} {c : Char} (h : l.getLast? = some c) :
    c ∈ l := by
  induction l with
  | nil => simp at h
  | cons a t ih =>
    cases t with
    | nil =>
      simp only [List.getLast?_singleton, Option.some.injEq] at h
      exact h ▸ List.mem_cons_self a []
    | cons b u =>
      rw [List.getLast?_cons_cons] at h
      exact List.mem_cons_of_mem a (ih h)

/-! ### Lemmas about `noTwoP` -/

theorem noTwoP_cons {q : Char → Bool} {c : Char} {cs : List Char} :
    noTwoP q (c :: cs) =
      (cs.head?.all (fun d => !(q c && q d)) && noTwoP q cs) := rfl

theorem noTwoP_of_cons {q : Char → Bool} {c : Char} {cs : List Char}
    (h : noTwoP q (c :: cs) = true) : noTwoP q cs = true := by
  rw [noTwoP_cons, Bool.and_eq_true] at h
  exact h.2

theorem noTwoP_mono {p q : Char → Bool} (hpq : ∀ c, q c = true → p c = true)
    {l : List Char} (h : noTwoP p l = true) : noTwoP q l = true := by
  induction l with
  | nil => rfl
  | cons a t ih =>
    rw [noTwoP_cons, Bool.and_eq_true] at h ⊢
    refine ⟨?_, ih h.2⟩
    have h1 := h.1
    cases hd : t.head? with
    | none => simp [hd]
    | some d =>
      rw [hd] at h1
      rw [Option.all_some] at h1 ⊢
      cases hqa : q a with
      | false => simp [hqa]
      | true =>
        cases hqd : q d with
        | false => simp [hqd]
        | true =>
          rw [hpq a hqa, hpq d hqd] at h1
          simp at h1

theorem noTwoP_dropWhile {q p : Char → Bool} {l : List Char}
    (h : noTwoP q l = true) : noTwoP q (l.dropWhile p) = true := by
  induction l with
  | nil => rfl
  | cons a t ih =>
    by_cases hp : p a
    · rw [List.dropWhile_cons_of_pos hp]
      exact ih (noTwoP_of_cons h)
    · rwa [List.dropWhile_cons_of_neg hp]

theorem head?_take_eq {l : List Char} {n : ℕ} {c : Char}
    (h : (l.take n).head? = some c) : l.head? = some c := by
  rw [List.head?_take] at h
  by_cases hn : n = 0
  · simp [hn] at h
  · simpa [hn] using h

theorem noTwoP_take {q : Char → Bool} {l : List Char}
    (h : noTwoP q l = true) (n : ℕ) : noTwoP q (l.take n) = true := by
  induction l generalizing n with
  | nil => simp [noTwoP]
  | cons a t ih =>
    cases n with
    | zero => rfl
    | succ m =>
      rw [List.take_succ_cons, noTwoP_cons, Bool.and_eq_true]
      rw [noTwoP_cons, Bool.and_eq_true] at h
      refine ⟨?_, ih (h.2) m⟩
      cases hd : (t.take m).head? with
      | none => simp [hd]
      | some d =>
        have ht := head?_take_eq hd
        have h1 := h.1
        rw [ht, Option.all_some] at h1
        rw [Option.all_some]
        exact h1

theorem noTwoP_concat {q : Char → Bool} {l : List Char} {a : Char}
    (h : noTwoP q l = true)
    (hj : l.getLast?.all (fun d => !(q d && q a)) = true) :
    noTwoP q (l ++ [a]) = true := by
  induction l with
  | nil => simp [noTwoP]
  | cons c cs ih =>
    rw [noTwoP_cons, Bool.and_eq_true] at h
    rw [List.cons_append, noTwoP_cons, Bool.and_eq_true]
    cases cs with
    | nil =>
      simp only [List.getLast?_singleton, Option.all_some] at hj
      refine ⟨?_, by simp [noTwoP]⟩
      simpa using hj
    | cons b bs =>
      rw [List.getLast?_cons_cons] at hj
      refine ⟨?_, ih h.2 hj⟩
      have h1 := h.1
      simpa using h1

theorem noTwoP_reverse {q : Char → Bool} {l : List Char}
    (h : noTwoP q l = true) : noTwoP q l.reverse = true := by
  induction l with
  | nil => rfl
  | cons a t ih =>
    rw [List.reverse_cons]
    rw [noTwoP_cons, Bool.and_eq_true] at h
    refine noTwoP_concat (ih h.2) ?_
    rw [List.getLast?_reverse]
    cases hd : t.head? with
    | none => simp [hd]
    | some d =>
      rw [Option.all_some]
      have h1 := h.1
      rw [hd, Option.all_some] at h1
      cases hqa : q a <;> cases hqd : q d <;> simp_all

/-! ### Lemmas about `collapseAux` -/

theorem collapseAux_true_cons (p : Char → Bool) (r a : Char) (t : List Char) :
    collapseAux p r true (a :: t) =
      if p a then collapseAux p r true t
      else a :: collapseAux p r false t := rfl

theorem collapseAux_false_cons (p : Char → Bool) (r a : Char) (t : List Char) :
    collapseAux p r false (a :: t) =
      if p a then r :: collapseAux p r true t
      else a :: collapseAux p r false t := rfl

theorem mem_collapseAux {p : Char → Bool} {r c : Char} {l : List Char} :
    ∀ {b : Bool}, c ∈ collapseAux p r b l → c = r ∨ (c ∈ l ∧ p c = false) := by
  induction l with
  | nil => intro b h; cases b <;> simp [collapseAux] at h
  | cons a t ih =>
    intro b h
    have step : c ∈ collapseAux p r true t ∨ c ∈ collapseAux p r false t →
        c = r ∨ (c ∈ a :: t ∧ p c = false) := by
      intro hmem
      have : c = r ∨ (c ∈ t ∧ p c = false) := by
        rcases hmem with hm | hm
        · exact ih hm
        · exact ih hm
      rcases this with h1 | h2
      · exact Or.inl h1
      · exact Or.inr ⟨List.mem_cons_of_mem a h2.1, h2.2⟩
    by_cases hp : p a
    · cases b with
      | true =>
        rw [collapseAux_true_cons, if_pos hp] at h
        exact step (Or.inl h)
      | false =>
        rw [collapseAux_false_cons, if_pos hp] at h
        rcases List.mem_cons.mp h with h1 | h1
        · exact Or.inl h1
        · exact step (Or.inl h1)
    · have hpf : p a = false := by simpa using hp
      have h' : c ∈ a :: collapseAux p r false t := by
        cases b with
        | true => rwa [collapseAux_true_cons, if_neg hp] at h
        | false => rwa [collapseAux_false_cons, if_neg hp] at h
      rcases List.mem_cons.mp h' with h1 | h1
      · exact Or.inr ⟨h1 ▸ List.mem_cons_self a t, h1 ▸ hpf⟩
      · exact step (Or.inr h1)

theorem head?_collapseAux_true {p : Char → Bool} {r c : Char} {l : List Char}
    (h : (collapseAux p r true l).head? = some c) : p c = false := by
  induction l with
  | nil => simp [collapseAux] at h
  | cons a t ih =>
    by_cases hp : p a
    · rw [collapseAux_true_cons, if_pos hp] at h
      exact ih h
    · rw [collapseAux_true_cons, if_neg hp] at h
      simp only [List.head?_cons, Option.some.injEq] at h
      subst h
      simpa using hp

theorem head?_collapseAux_false {p : Char → Bool} {r c : Char} {l : List Char}
    (h : (collapseAux p r false l).head? = some c) :
    c = r ∨ (l.head? = some c ∧ p c = false) := by
  cases l with
  | nil => simp [collapseAux] at h
  | cons a t =>
    by_cases hp : p a
    · rw [collapseAux_false_cons, if_pos hp] at h
      simp only [List.head?_cons, Option.some.injEq] at h
      exact Or.inl h.symm
    · rw [collapseAux_false_cons, if_neg hp] at h
      simp only [List.head?_cons, Option.some.injEq] at h
      subst h
      exact Or.inr ⟨rfl, by simpa using hp⟩

theorem noTwoP_collapseAux_self {p : Char → Bool} {r : Char} {l : List Char} :
    ∀ b, noTwoP p (collapseAux p r b l) = true := by
  induction l with
  | nil => intro b; cases b <;> rfl
  | cons a t ih =>
    intro b
    by_cases hp : p a
    · cases b with
      | true =>
        rw [collapseAux_true_cons, if_pos hp]
        exact ih true
      | false =>
        rw [collapseAux_false_cons, if_pos hp, noTwoP_cons, Bool.and_eq_true]
        refine ⟨?_, ih true⟩
        cases hd : (collapseAux p r true t).head? with
        | none => simp
        | some d =>
          rw [Option.all_some, head?_collapseAux_true hd]
          simp
    · have key : noTwoP p (a :: collapseAux p r false t) = true := by
        rw [noTwoP_cons, Bool.and_eq_true]
        refine ⟨?_, ih false⟩
        cases hd : (collapseAux p r false t).head? with
        | none => simp
        | some d =>
          rw [Option.all_some]
          simp [show p a = false by simpa using hp]
      cases b with
      | true => rw [collapseAux_true_cons, if_neg hp]; exact key
      | false => rw [collapseAux_false_cons, if_neg hp]; exact key

theorem noTwoP_collapseAux_other {p q : Char → Bool} {r : Char} {l : List Char}
    (hqr : q r = false) (h : noTwoP q l = true) :
    ∀ b, noTwoP q (collapseAux p r b l) = true := by
  induction l with
  | nil => intro b; cases b <;> rfl
  | cons a t ih =>
    intro b
    rw [noTwoP_cons, Bool.and_eq_true] at h
    by_cases hp : p a
    · cases b with
      | true =>
        rw [collapseAux_true_cons, if_pos hp]
        exact ih h.2 true
      | false =>
        rw [collapseAux_false_cons, if_pos hp, noTwoP_cons, Bool.and_eq_true]
        refine ⟨?_, ih h.2 true⟩
        cases hd : (collapseAux p r true t).head? with
        | none => simp
        | some d => rw [Option.all_some, hqr]; simp
    · have key : noTwoP q (a :: collapseAux p r false t) = true := by
        rw [noTwoP_cons, Bool.and_eq_true]
        refine ⟨?_, ih h.2 false⟩
        cases hd : (collapseAux p r false t).head? with
        | none => simp
        | some d =>
          rw [Option.all_some]
          rcases head?_collapseAux_false hd with h1 | h2
          · rw [h1, hqr]; simp
          · have h3 := h.1
            rw [h2.1, Option.all_some] at h3
            exact h3
      cases b with
      | true => rw [collapseAux_true_cons, if_neg hp]; exact key
      | false => rw [collapseAux_false_cons, if_neg hp]; exact key

theorem collapseAux_true_eq_false {p : Char → Bool} {r : Char} {l : List Char}
    (h : ∀ c, l.head? = some c → p c = false) :
    collapseAux p r true l = collapseAux p r false l := by
  cases l with
  | nil => rfl
  | cons a t =>
    have hp : ¬ p a = true := by simp [h a rfl]
    rw [collapseAux_true_cons, collapseAux_false_cons, if_neg hp, if_neg hp]

theorem collapseAux_eq_self {p : Char → Bool} {r : Char} {l : List Char}
    (h2 : noTwoP p l = true) (h3 : ∀ c ∈ l, p c = true → c = r) :
    collapseAux p r false l = l := by
  induction l with
  | nil => rfl
  | cons a t ih =>
    rw [noTwoP_cons, Bool.and_eq_true] at h2
    have iht : collapseAux p r false t = t :=
      ih h2.2 (fun c hc => h3 c (List.mem_cons_of_mem a hc))
    by_cases hp : p a
    · have har : a = r := h3 a (List.mem_cons_self a t) hp
      rw [collapseAux_false_cons, if_pos hp]
      have hhead : ∀ c, t.head? = some c → p c = false := by
        intro c hc
        have h1 := h2.1
        rw [hc, Option.all_some, hp] at h1
        simpa using h1
      rw [collapseAux_true_eq_false hhead, iht, har]
    · rw [collapseAux_false_cons, if_neg hp, iht]

theorem collapseAux_eq_self_of_none {p : Char → Bool} {r : Char} {l : List Char}
    (h : ∀ c ∈ l, p c = false) : collapseAux p r false l = l := by
  induction l with
  | nil => rfl
  | cons a t ih =>
    have hp : ¬ p a = true := by simp [h a (List.mem_cons_self a t)]
    rw [collapseAux_false_cons, if_neg hp,
      ih (fun c hc => h c (List.mem_cons_of_mem a hc))]

/-! ### Small helper lemmas -/

theorem mem_dropWhile {p : Char → Bool} {l : List Char} {c : Char}
    (h : c ∈ l.dropWhile p) : c ∈ l :=
  List.Sublist.mem h (List.dropWhile_sublist p)

theorem head_all_imp {l : List Char} {p : Char → Bool}
    (h : l.head?.all p = true) : ∀ c, l.head? = some c → p c = true := by
  intro c hc
  rwa [hc, Option.all_some] at h

theorem noTwoP_cons_of_false {q : Char → Bool} {a : Char} {l : List Char}
    (hq : q a = false) (h : noTwoP q l = true) : noTwoP q (a :: l) = true := by
  rw [noTwoP_cons, Bool.and_eq_true]
  refine ⟨?_, h⟩
  cases hd : l.head? with
  | none => simp
  | some d => rw [Option.all_some, hq]; simp

theorem noTwoP_cons_of_head {q : Char → Bool} {a : Char} {l : List Char}
    (h : noTwoP q l = true) (hh : ∀ c, l.head? = some c → q c = false) :
    noTwoP q (a :: l) = true := by
  rw [noTwoP_cons, Bool.and_eq_true]
  refine ⟨?_, h⟩
  cases hd : l.head? with
  | none => simp
  | some d => rw [Option.all_some, hh d hd]; simp

/-! ### Lemmas about the individual pipeline stages -/

theorem mem_pyStrip {l : List Char} {c : Char} (h : c ∈ pyStrip l) : c ∈ l := by
  unfold pyStrip at h
  rw [List.mem_reverse] at h
  have h1 := mem_dropWhile h
  rw [List.mem_reverse] at h1
  exact mem_dropWhile h1

theorem pyStrip_eq_nil {l : List Char} (h : ∀ c ∈ l, isPySpace c = true) :
    pyStrip l = [] := by
  unfold pyStrip
  rw [dropWhile_eq_nil_of_all h]
  rfl

theorem pyStrip_eq_self {l : List Char}
    (hh : ∀ c, l.head? = some c → isPySpace c = false)
    (hl : ∀ c, l.getLast? = some c → isPySpace c = false) :
    pyStrip l = l := by
  unfold pyStrip
  rw [dropWhile_eq_self_of_head hh,
    dropWhile_eq_self_of_head (fun c hc => hl c (by rwa [List.head?_reverse] at hc)),
    List.reverse_reverse]

theorem mem_basename {l : List Char} {c : Char} (h : c ∈ basename l) : c ∈ l := by
  unfold basename at h
  rw [List.mem_reverse] at h
  have h1 := List.Sublist.mem h (List.takeWhile_sublist _)
  rwa [List.mem_reverse] at h1

theorem basename_eq_self {l : List Char} (h : '/' ∉ l) : basename l = l := by
  unfold basename
  rw [takeWhile_eq_self_of_all, List.reverse_reverse]
  intro c hc
  rw [List.mem_reverse] at hc
  simp only [Bool.not_eq_true', beq_eq_false_iff_ne, ne_eq]
  rintro rfl
  exact h hc

theorem mem_replaceSeps {l : List Char} {c : Char} (h : c ∈ replaceSeps l) :
    c = '_' ∨ c ∈ l := by
  unfold replaceSeps at h
  rcases List.mem_map.mp h with ⟨b, hb, hbc⟩
  rcases List.mem_map.mp hb with ⟨a, ha, hab⟩
  by_cases h1 : a = '/'
  · left
    rw [if_pos h1] at hab
    rw [← hab, if_neg (by decide : ¬ ('_' : Char) = '\\')] at hbc
    exact hbc.symm
  · rw [if_neg h1] at hab
    subst hab
    by_cases h2 : a = '\\'
    · left
      rw [if_pos h2] at hbc
      exact hbc.symm
    · right
      rw [if_neg h2] at hbc
      exact hbc ▸ ha

theorem replaceSeps_eq_self {l : List Char} (h1 : '/' ∉ l) (h2 : '\\' ∉ l) :
    replaceSeps l = l := by
  unfold replaceSeps
  have e1 : l.map (fun c => if c = '/' then '_' else c) = l := by
    rw [List.map_congr_left (g := id), List.map_id]
    intro a ha
    simp only [id]
    rw [if_neg]
    rintro rfl
    exact h1 ha
  rw [e1]
  rw [List.map_congr_left (g := id), List.map_id]
  intro a ha
  simp only [id]
  rw [if_neg]
  rintro rfl
  exact h2 ha

theorem kept_replaceBad (l : List Char) : ∀ c ∈ replaceBad l, isKept c = true := by
  intro c hc
  rcases mem_collapseAux hc with h1 | h2
  · subst h1; decide
  · simpa using h2.2

theorem replaceBad_eq_self {l : List Char} (h : ∀ c ∈ l, isKept c = true) :
    replaceBad l = l := by
  unfold replaceBad collapseRuns
  exact collapseAux_eq_self_of_none (fun c hc => by simp [h c hc])

theorem kept_collapseSpaces {l : List Char}
    (h : ∀ c ∈ l, isKept c = true) : ∀ c ∈ collapseSpaces l, isKept c = true := by
  intro c hc
  rcases mem_collapseAux hc with h1 | h2
  · subst h1; decide
  · exact h c h2.1

theorem ws_collapseSpaces (l : List Char) :
    ∀ c ∈ collapseSpaces l, isPySpace c = true → c = ' ' := by
  intro c hc hw
  rcases mem_collapseAux hc with h1 | h2
  · exact h1
  · rw [hw] at h2; exact absurd h2.2 (by simp)

theorem noTwoWS_collapseSpaces (l : List Char) :
    noTwoP isPySpace (collapseSpaces l) = true :=
  noTwoP_collapseAux_self false

theorem collapseSpaces_eq_self {l : List Char}
    (h1 : noTwoP isPySpace l = true) (h2 : ∀ c ∈ l, isPySpace c = true → c = ' ') :
    collapseSpaces l = l :=
  collapseAux_eq_self h1 h2

theorem kept_collapseUnderscores {l : List Char}
    (h : ∀ c ∈ l, isKept c = true) :
    ∀ c ∈ collapseUnderscores l, isKept c = true := by
  intro c hc
  rcases mem_collapseAux hc with h1 | h2
  · subst h1; decide
  · exact h c h2.1

theorem ws_collapseUnderscores {l : List Char}
    (h : ∀ c ∈ l, isPySpace c = true → c = ' ') :
    ∀ c ∈ collapseUnderscores l, isPySpace c = true → c = ' ' := by
  intro c hc hw
  rcases mem_collapseAux hc with h1 | h2
  · subst h1; exact absurd hw (by decide)
  · exact h c h2.1 hw

theorem noTwoWS_collapseUnderscores {l : List Char}
    (h : noTwoP isPySpace l = true) :
    noTwoP isPySpace (collapseUnderscores l) = true :=
  noTwoP_collapseAux_other (by decide) h false

theorem noTwoU_collapseUnderscores (l : List Char) :
    noTwoP (fun c => c == '_') (collapseUnderscores l) = true :=
  noTwoP_collapseAux_self false

theorem collapseUnderscores_eq_self {l : List Char}
    (h : noTwoP (fun c => c == '_') l = true) : collapseUnderscores l = l := by
  unfold collapseUnderscores collapseRuns
  exact collapseAux_eq_self h (fun c _ hc => by simpa [beq_iff_eq] using hc)

theorem lstripDots_eq_self {l : List Char}
    (h : ∀ c, l.head? = some c → (c == '.') = false) : lstripDots l = l :=
  dropWhile_eq_self_of_head h

/-! ### Lemmas about the reserved-name step -/

theorem isReserved_iff {l : List Char} : isReserved l = true ↔ toUpperL l ∈ RESERVED := by
  simp [isReserved]

theorem reserved_short : ∀ m ∈ RESERVED, m.length ≤ 4 := by decide

theorem reserved_heads :
    ∀ m ∈ RESERVED, m.head?.all (fun c => !(c == '_') && !(c == ' ')) = true := by
  decide

theorem reserved_head_ne {l : List Char} (h : isReserved l = true) :
    ∀ c, l.head? = some c → ((c == '_') = false ∧ (c == ' ') = false) := by
  intro c hc
  have hmem := isReserved_iff.mp h
  have hh := reserved_heads _ hmem
  rw [show (toUpperL l).head? = Option.map Char.toUpper l.head? from List.head?_map _ _,
    hc, Option.map_some', Option.all_some, Bool.and_eq_true] at hh
  constructor
  · cases h1 : (c == '_') with
    | false => rfl
    | true =>
      rw [beq_iff_eq] at h1
      subst h1
      exact absurd hh.1 (by decide)
  · cases h1 : (c == ' ') with
    | false => rfl
    | true =>
      rw [beq_iff_eq] at h1
      subst h1
      exact absurd hh.2 (by decide)

theorem isReserved_reservedStep (l : List Char) :
    isReserved (reservedStep l) = false := by
  unfold reservedStep
  by_cases h : isReserved l = true
  · rw [if_pos h]
    cases hres : isReserved (filePre ++ l) with
    | false => rfl
    | true =>
      have h2 : toUpperL (filePre ++ l) ∈ RESERVED := isReserved_iff.mp hres
      have h3 := reserved_short _ h2
      have h4 : (toUpperL (filePre ++ l)).length = 5 + l.length := by
        simp [toUpperL, filePre]
        omega
      omega
  · rw [if_neg h]
    simpa using h

theorem mem_reservedStep {l : List Char} {c : Char} (h : c ∈ reservedStep l) :
    c ∈ filePre ∨ c ∈ l := by
  unfold reservedStep at h
  by_cases hres : isReserved l = true
  · rw [if_pos hres] at h
    exact List.mem_append.mp h
  · rw [if_neg hres] at h
    exact Or.inr h

theorem reservedStep_eq_self {l : List Char} (h : isReserved l = false) :
    reservedStep l = l := by
  unfold reservedStep
  rw [h]
  rfl

theorem noTwoWS_reservedStep {l : List Char} (h : noTwoP isPySpace l = true) :
    noTwoP isPySpace (reservedStep l) = true := by
  unfold reservedStep
  by_cases hres : isReserved l = true
  · rw [if_pos hres]
    show noTwoP isPySpace ('f' :: 'i' :: 'l' :: 'e' :: '_' :: l) = true
    exact noTwoP_cons_of_false (by decide) (noTwoP_cons_of_false (by decide)
      (noTwoP_cons_of_false (by decide) (noTwoP_cons_of_false (by decide)
        (noTwoP_cons_of_false (by decide) h))))
  · rwa [if_neg hres]

theorem noTwoU_reservedStep {l : List Char}
    (h : noTwoP (fun c => c == '_') l = true) :
    noTwoP (fun c => c == '_') (reservedStep l) = true := by
  unfold reservedStep
  by_cases hres : isReserved l = true
  · rw [if_pos hres]
    show noTwoP (fun c => c == '_') ('f' :: 'i' :: 'l' :: 'e' :: '_' :: l) = true
    have hlast : noTwoP (fun c => c == '_') ('_' :: l) = true :=
      noTwoP_cons_of_head h (fun c hc => (reserved_head_ne hres c hc).1)
    exact noTwoP_cons_of_false (by decide) (noTwoP_cons_of_false (by decide)
      (noTwoP_cons_of_false (by decide) (noTwoP_cons_of_false (by decide) hlast)))
  · rwa [if_neg hres]

/-! ### Lemmas about `stripBoundary` and `truncate150` -/

theorem mem_stripBoundary {l : List Char} {c : Char} (h : c ∈ stripBoundary l) :
    c ∈ l := by
  unfold stripBoundary at h
  rw [List.mem_reverse] at h
  have h1 := mem_dropWhile h
  rw [List.mem_reverse] at h1
  exact mem_dropWhile h1

theorem length_stripBoundary_le (l : List Char) :
    (stripBoundary l).length ≤ l.length := by
  unfold stripBoundary
  rw [List.length_reverse]
  calc ((l.dropWhile stripBoundaryChar).reverse.dropWhile stripBoundaryChar).length
      ≤ (l.dropWhile stripBoundaryChar).reverse.length :=
        List.Sublist.length_le (List.dropWhile_sublist _)
    _ = (l.dropWhile stripBoundaryChar).length := List.length_reverse _
    _ ≤ l.length := List.Sublist.length_le (List.dropWhile_sublist _)

theorem stripBoundary_head_all (l : List Char) :
    (stripBoundary l).head?.all (fun c => !(stripBoundaryChar c)) = true := by
  unfold stripBoundary
  rw [List.head?_reverse]
  cases hd : ((l.dropWhile stripBoundaryChar).reverse.dropWhile stripBoundaryChar).getLast? with
  | none => simp
  | some c =>
    rw [Option.all_some]
    have hne : (l.dropWhile stripBoundaryChar).reverse.dropWhile stripBoundaryChar ≠ [] := by
      intro hnil
      rw [hnil] at hd
      simp at hd
    rw [getLast?_dropWhile hne, List.getLast?_reverse] at hd
    rw [head?_dropWhile_false hd]
    rfl

theorem stripBoundary_getLast_all (l : List Char) :
    (stripBoundary l).getLast?.all (fun c => !(stripBoundaryChar c)) = true := by
  unfold stripBoundary
  rw [List.getLast?_reverse]
  cases hd : ((l.dropWhile stripBoundaryChar).reverse.dropWhile stripBoundaryChar).head? with
  | none => simp
  | some c =>
    rw [Option.all_some, head?_dropWhile_false hd]
    rfl

theorem noTwoP_stripBoundary {q : Char → Bool} {l : List Char}
    (h : noTwoP q l = true) : noTwoP q (stripBoundary l) = true := by
  unfold stripBoundary
  exact noTwoP_reverse (noTwoP_dropWhile (noTwoP_reverse (noTwoP_dropWhile h)))

theorem stripBoundary_eq_self {l : List Char}
    (hh : ∀ c, l.head? = some c → stripBoundaryChar c = false)
    (hl : ∀ c, l.getLast? = some c → stripBoundaryChar c = false) :
    stripBoundary l = l := by
  unfold stripBoundary
  rw [dropWhile_eq_self_of_head hh,
    dropWhile_eq_self_of_head (fun c hc => hl c (by rwa [List.head?_reverse] at hc)),
    List.reverse_reverse]

theorem truncate150_eq_self {l : List Char} (h : l.length ≤ 150) :
    truncate150 l = l :=
  List.take_of_length_le h

theorem length_truncate150_le (l : List Char) : (truncate150 l).length ≤ 150 := by
  unfold truncate150
  rw [List.length_take]
  exact min_le_left _ _

/-! ### Invariants of the pipeline value `stage7` -/

theorem kept_stage7 (l : List Char) : ∀ c ∈ stage7 l, isKept c = true := by
  intro c hc
  unfold stage7 lstripDots at hc
  have h1 := mem_dropWhile hc
  exact kept_collapseUnderscores (kept_collapseSpaces (kept_replaceBad _)) c h1

theorem ws_stage7 (l : List Char) : ∀ c ∈ stage7 l, isPySpace c = true → c = ' ' := by
  intro c hc
  unfold stage7 lstripDots at hc
  have h1 := mem_dropWhile hc
  exact ws_collapseUnderscores (ws_collapseSpaces _) c h1

theorem noTwoWS_stage7 (l : List Char) : noTwoP isPySpace (stage7 l) = true := by
  unfold stage7 lstripDots
  exact noTwoP_dropWhile (noTwoWS_collapseUnderscores (noTwoWS_collapseSpaces _))

theorem noTwoU_stage7 (l : List Char) :
    noTwoP (fun c => c == '_') (stage7 l) = true := by
  unfold stage7 lstripDots
  exact noTwoP_dropWhile (noTwoU_collapseUnderscores _)

theorem head_stage7 (l : List Char) :
    ∀ c, (stage7 l).head? = some c → (c == '.') = false := by
  intro c hc
  unfold stage7 lstripDots at hc
  exact head?_dropWhile_false (p := fun c => c == '.') hc

/-! ### Invariants of the sanitizer output -/

theorem sanitizeList_cases (l : List Char) :
    sanitizeList l = UNNAMED ∨
      (sanitizeList l = stripBoundary (truncate150 (preTruncate l)) ∧
        stage7 l ≠ [] ∧ sanitizeList l ≠ []) := by
  unfold sanitizeList
  by_cases h1 : l = []
  · rw [if_pos h1]
    exact Or.inl rfl
  · rw [if_neg h1]
    by_cases h2 : stage7 l = []
    · rw [if_pos h2]
      exact Or.inl rfl
    · rw [if_neg h2]
      by_cases h3 : stripBoundary (truncate150 (preTruncate l)) = []
      · rw [if_pos h3]
        exact Or.inl rfl
      · rw [if_neg h3]
        exact Or.inr ⟨rfl, h2, h3⟩

theorem kept_filePre : ∀ c ∈ filePre, isKept c = true := by decide

theorem ws_filePre : ∀ c ∈ filePre, isPySpace c = true → c = ' ' := by decide

theorem kept_preTruncate (l : List Char) : ∀ c ∈ preTruncate l, isKept c = true := by
  intro c hc
  rcases mem_reservedStep hc with h1 | h1
  · exact kept_filePre c h1
  · exact kept_stage7 l c h1

theorem ws_preTruncate (l : List Char) :
    ∀ c ∈ preTruncate l, isPySpace c = true → c = ' ' := by
  intro c hc
  rcases mem_reservedStep hc with h1 | h1
  · exact ws_filePre c h1
  · exact ws_stage7 l c h1

theorem sanitizeList_props (l : List Char) :
    sanitizeList l ≠ [] ∧
    (sanitizeList l).length ≤ 150 ∧
    (∀ c ∈ sanitizeList l, isKept c = true) ∧
    (∀ c ∈ sanitizeList l, isPySpace c = true → c = ' ') ∧
    noTwoP isPySpace (sanitizeList l) = true ∧
    noTwoP (fun c => c == '_') (sanitizeList l) = true ∧
    (sanitizeList l).head?.all (fun c => !(stripBoundaryChar c)) = true ∧
    (sanitizeList l).getLast?.all (fun c => !(stripBoundaryChar c)) = true := by
  rcases sanitizeList_cases l with h | ⟨h, _, hne⟩
  · rw [h]
    exact ⟨by decide, by decide, by decide, by decide, by decide, by decide,
      by decide, by decide⟩
  · refine ⟨hne, ?_, ?_, ?_, ?_, ?_, ?_, ?_⟩
    · rw [h]
      exact le_trans (length_stripBoundary_le _) (length_truncate150_le _)
    · rw [h]
      intro c hc
      exact kept_preTruncate l c (List.mem_of_mem_take (mem_stripBoundary hc))
    · rw [h]
      intro c hc
      exact ws_preTruncate l c (List.mem_of_mem_take (mem_stripBoundary hc))
    · rw [h]
      exact noTwoP_stripBoundary (noTwoP_take (noTwoWS_reservedStep (noTwoWS_stage7 l)) 150)
    · rw [h]
      exact noTwoP_stripBoundary (noTwoP_take (noTwoU_reservedStep (noTwoU_stage7 l)) 150)
    · rw [h]
      exact stripBoundary_head_all _
    · rw [h]
      exact stripBoundary_getLast_all _

/-- Core of the idempotence argument: any character list satisfying all
output invariants of the sanitizer, and which is not case-insensitively a
reserved device name, is a fixed point of `sanitizeList`. -/
theorem sanitizeList_fixed {O : List Char}
    (h1 : O ≠ []) (h2 : O.length ≤ 150)
    (h3 : ∀ c ∈ O, isKept c = true)
    (h4 : ∀ c ∈ O, isPySpace c = true → c = ' ')
    (h5 : noTwoP isPySpace O = true)
    (h6 : noTwoP (fun c => c == '_') O = true)
    (h7 : O.head?.all (fun c => !(stripBoundaryChar c)) = true)
    (h8 : O.getLast?.all (fun c => !(stripBoundaryChar c)) = true)
    (h9 : isReserved O = false) :
    sanitizeList O = O := by
  have hh : ∀ c, O.head? = some c → stripBoundaryChar c = false := by
    intro c hc
    have := head_all_imp h7 c hc
    simpa using this
  have hl : ∀ c, O.getLast? = some c → stripBoundaryChar c = false := by
    intro c hc
    have := head_all_imp (l := O.reverse) (by rwa [List.head?_reverse]) c
      (by rwa [List.head?_reverse])
    simpa using this
  have hwsHead : ∀ c, O.head? = some c → isPySpace c = false := by
    intro c hc
    cases hw : isPySpace c with
    | false => rfl
    | true =>
      have hsp := h4 c (mem_of_head? hc) hw
      subst hsp
      exact absurd (hh _ hc) (by decide)
  have hwsLast : ∀ c, O.getLast? = some c → isPySpace c = false := by
    intro c hc
    cases hw : isPySpace c with
    | false => rfl
    | true =>
      have hsp := h4 c (mem_of_getLast? hc) hw
      subst hsp
      exact absurd (hl _ hc) (by decide)
  have hslash : '/' ∉ O := by
    intro hmem
    exact absurd (h3 _ hmem) (by decide)
  have hback : '\\' ∉ O := by
    intro hmem
    exact absurd (h3 _ hmem) (by decide)
  have hstage : stage7 O = O := by
    unfold stage7
    rw [pyStrip_eq_self hwsHead hwsLast, basename_eq_self hslash,
      replaceSeps_eq_self hslash hback, replaceBad_eq_self h3,
      collapseSpaces_eq_self h5 h4, collapseUnderscores_eq_self h6,
      lstripDots_eq_self]
    intro c hc
    have := hh c hc
    unfold stripBoundaryChar at this
    rcases Bool.or_eq_false_iff.mp this with ⟨ha, _⟩
    rcases Bool.or_eq_false_iff.mp ha with ⟨hb, _⟩
    rcases Bool.or_eq_false_iff.mp hb with ⟨hdot, _⟩
    exact hdot
  have hmain : stripBoundary (truncate150 (preTruncate O)) = O := by
    unfold preTruncate
    rw [hstage, reservedStep_eq_self h9, truncate150_eq_self h2,
      stripBoundary_eq_self hh hl]
  unfold sanitizeList
  rw [if_neg h1, hstage, if_neg h1, hmain, if_neg h1]

theorem boundary_split {c : Char} (h : stripBoundaryChar c = false) :
    (!(c == '.') && !(c == '_') && !(c == '-') && !(c == ' ')) = true := by
  unfold stripBoundaryChar at h
  rcases Bool.or_eq_false_iff.mp h with ⟨hA, h4⟩
  rcases Bool.or_eq_false_iff.mp hA with ⟨hB, h3⟩
  rcases Bool.or_eq_false_iff.mp hB with ⟨h1, h2⟩
  rw [h1, h2, h3, h4]
  rfl

theorem word_no_control {c : Char} (hk : isWordChar c = true) :
    (!(decide (c.toNat < 32) || c.toNat == 127)) = true := by
  have hn : (97 ≤ c.toNat ∧ c.toNat ≤ 122) ∨ (65 ≤ c.toNat ∧ c.toNat ≤ 90) ∨
      (48 ≤ c.toNat ∧ c.toNat ≤ 57) ∨ c.toNat = 95 ∨ 127 < c.toNat := by
    unfold isWordChar at hk
    simp only [Bool.or_eq_true_iff, Bool.and_eq_true, decide_eq_true_eq,
      beq_iff_eq] at hk
    rcases hk with (((h | h) | h) | h) | h
    · exact Or.inl ⟨h.1, h.2⟩
    · exact Or.inr (Or.inl ⟨h.1, h.2⟩)
    · exact Or.inr (Or.inr (Or.inl ⟨h.1, h.2⟩))
    · exact Or.inr (Or.inr (Or.inr (Or.inl h)))
    · exact Or.inr (Or.inr (Or.inr (Or.inr h.1)))
  simp only [Bool.not_eq_true', Bool.or_eq_false_iff, decide_eq_false_iff_not,
    not_lt, beq_eq_false_iff_ne, ne_eq]
  omega

theorem kept_accepted {c : Char} (hk : isKept c = true)
    (hw : isPySpace c = true → c = ' ') :
    ((isWordChar c || c == ' ' || c == '.' || c == '-' ||
      c == '(' || c == ')' || c == '[' || c == ']') &&
      !(decide (c.toNat < 32) || c.toNat == 127)) = true := by
  unfold isKept at hk
  simp only [Bool.or_eq_true_iff, beq_iff_eq] at hk
  rcases hk with ((((((hword | hsp) | h1) | h1) | h1) | h1) | h1) | h1
  · rw [Bool.and_eq_true]
    refine ⟨?_, word_no_control hword⟩
    simp [hword]
  · rw [hw hsp]
    decide
  · subst h1; decide
  · subst h1; decide
  · subst h1; decide
  · subst h1; decide
  · subst h1; decide
  · subst h1; decide

/-! ### The claims about `sanitize_filename` -/

/-- C1: for every string `s`, `sanitize_filename s` is non-empty, contains
no `/` and no `\` character, and neither starts nor ends with `.`, `_`,
`-`, or the space character (in particular it does not start with `.`). -/
theorem C1_sanitize_basic_invariants (s : String) :
    sanitize_filename s ≠ "" ∧
    '/' ∉ (sanitize_filename s).data ∧
    '\\' ∉ (sanitize_filename s).data ∧
    (sanitize_filename s).data.head?.all
      (fun c => !(c == '.') && !(c == '_') && !(c == '-') && !(c == ' ')) = true ∧
    (sanitize_filename s).data.getLast?.all
      (fun c => !(c == '.') && !(c == '_') && !(c == '-') && !(c == ' ')) = true := by
  obtain ⟨h1, _, h3, _, _, _, h7, h8⟩ := sanitizeList_props s.data
  have hdata : (sanitize_filename s).data = sanitizeList s.data := rfl
  refine ⟨?_, ?_, ?_, ?_, ?_⟩
  · intro he
    exact h1 (congrArg String.data he)
  · rw [hdata]
    intro hm
    exact absurd (h3 _ hm) (by decide)
  · rw [hdata]
    intro hm
    exact absurd (h3 _ hm) (by decide)
  · rw [hdata]
    cases hd : (sanitizeList s.data).head? with
    | none => rfl
    | some c =>
      rw [Option.all_some]
      have hc := head_all_imp h7 c hd
      exact boundary_split (by simpa using hc)
  · rw [hdata]
    cases hd : (sanitizeList s.data).getLast? with
    | none => rfl
    | some c =>
      rw [Option.all_some]
      have hc := head_all_imp (l := (sanitizeList s.data).reverse)
        (by rwa [List.head?_reverse]) c (by rwa [List.head?_reverse])
      exact boundary_split (by simpa using hc)

/-- C2: `sanitize_filename` is a total computable function (it is defined
by structural recursion on its input, so it terminates and returns a
string on every input, including the empty, all-whitespace, all-dot and
arbitrarily long ones); moreover the returned string is never empty. -/
theorem C2_sanitize_total (s : String) : 0 < (sanitize_filename s).length := by
  obtain ⟨h1, _, _, _, _, _, _, _⟩ := sanitizeList_props s.data
  have : (sanitize_filename s).length = (sanitizeList s.data).length := rfl
  rw [this]
  exact List.length_pos.mpr h1

/-- C3: the sanitized name never exceeds 150 characters. -/
theorem C3_sanitize_length_le (s : String) : (sanitize_filename s).length ≤ 150 := by
  obtain ⟨_, h2, _, _, _, _, _, _⟩ := sanitizeList_props s.data
  have : (sanitize_filename s).length = (sanitizeList s.data).length := rfl
  rw [this]
  exact h2

/-- C4 counterexample: the claim "the output never equals a reserved
device name case-insensitively" is false: the final boundary strip can
expose a reserved name after the reserved-name check has already run.
`sanitize_filename "-CON-" = "CON"`. -/
theorem C4_counterexample :
    isReserved (sanitize_filename "-CON-").data = true ∧
    sanitize_filename "-CON-" = "CON" := by
  exact ⟨by decide, by decide⟩

/-- C4 amended: whenever truncation and the final boundary strip leave
the value checked against the reserved-name table unchanged, the output
never equals a reserved device name case-insensitively. -/
theorem C4_amended_not_reserved (s : String)
    (h : stripBoundary (truncate150 (preTruncate s.data)) = preTruncate s.data) :
    isReserved (sanitize_filename s).data = false := by
  have hdata : (sanitize_filename s).data = sanitizeList s.data := rfl
  rw [hdata]
  rcases sanitizeList_cases s.data with h1 | ⟨h1, _, _⟩
  · rw [h1]
    decide
  · rw [h1, h]
    exact isReserved_reservedStep _

theorem C4_amended_not_reserved_witness :
    stripBoundary (truncate150 (preTruncate "hello".data)) = preTruncate "hello".data ∧
    isReserved (sanitize_filename "hello").data = false :=
  ⟨by decide, C4_amended_not_reserved "hello" (by decide)⟩

/-- C5 counterexample: `sanitize_filename "con.txt"` is NOT
`"file_con.txt"`: the code compares the entire name (including any
extension) against the reserved table, so `"con.txt"` is not treated as
reserved and passes through unchanged. -/
theorem C5_counterexample :
    sanitize_filename "con.txt" = "con.txt" ∧
    sanitize_filename "con.txt" ≠ "file_con.txt" := by
  exact ⟨by decide, by decide⟩

/-- C5 amended: `sanitize_filename "CON"` carries the `file_` marker with
the body case preserved, while `sanitize_filename "con.txt"` is returned
unchanged because the whole name, extension included, is compared against
the reserved table. -/
theorem C5_amended_reserved_handling :
    sanitize_filename "CON" = "file_CON" ∧
    sanitize_filename "con.txt" = "con.txt" := by
  exact ⟨by decide, by decide⟩

/-- C6 counterexample: idempotence fails on an input whose sanitization
involves no truncation at all: `sanitize_filename "-CON-" = "CON"` (the
value before truncation has length 5, far below 150), yet applying the
sanitizer again yields `"file_CON"`. -/
theorem C6_counterexample :
    (preTruncate "-CON-".data).length ≤ 150 ∧
    sanitize_filename (sanitize_filename "-CON-") ≠ sanitize_filename "-CON-" := by
  exact ⟨by decide, by decide⟩

/-- C6 amended: `sanitize_filename` is idempotent on every input whose
sanitization is not shortened by the 150-character truncation AND whose
output is not, case-insensitively, a reserved device name (the second
exception is forced by the counterexample `"-CON-"`, where the final
boundary strip exposes a reserved name). -/
theorem C6_amended_idempotent (s : String)
    (_hlen : (preTruncate s.data).length ≤ 150)
    (hres : isReserved (sanitize_filename s).data = false) :
    sanitize_filename (sanitize_filename s) = sanitize_filename s := by
  obtain ⟨h1, h2, h3, h4, h5, h6, h7, h8⟩ := sanitizeList_props s.data
  apply String.ext
  show sanitizeList (sanitize_filename s).data = (sanitize_filename s).data
  have hdata : (sanitize_filename s).data = sanitizeList s.data := rfl
  rw [hdata]
  exact sanitizeList_fixed h1 h2 h3 h4 h5 h6 h7 h8 (by rwa [hdata] at hres)

theorem C6_amended_idempotent_witness :
    (preTruncate "Report Final".data).length ≤ 150 ∧
    isReserved (sanitize_filename "Report Final").data = false ∧
    sanitize_filename (sanitize_filename "Report Final") = sanitize_filename "Report Final" :=
  ⟨by decide, by decide, C6_amended_idempotent "Report Final" (by decide) (by decide)⟩

/-- C7: the sentinel `"unnamed_file"` is returned for the empty string,
any string whose characters are all whitespace (hence empty after
trimming), the three-space string, and the all-dots input `"..."`. -/
theorem C7_unnamed_sentinel :
    sanitize_filename "" = "unnamed_file" ∧
    sanitize_filename "   " = "unnamed_file" ∧
    sanitize_filename "..." = "unnamed_file" ∧
    ∀ s : String, s.data.all isPySpace = true → sanitize_filename s = "unnamed_file" := by
  refine ⟨by decide, by decide, by decide, ?_⟩
  intro s hs
  have hps : pyStrip s.data = [] := pyStrip_eq_nil (List.all_eq_true.mp hs)
  have hstage : stage7 s.data = [] := by
    unfold stage7
    rw [hps]
    rfl
  unfold sanitize_filename sanitizeList
  by_cases h1 : s.data = []
  · rw [if_pos h1]
    rfl
  · rw [if_neg h1, if_pos hstage]
    rfl

theorem C7_unnamed_sentinel_witness :
    (" \t".data.all isPySpace = true) ∧ sanitize_filename " \t" = "unnamed_file" :=
  ⟨by decide, C7_unnamed_sentinel.2.2.2 " \t" (by decide)⟩

/-- C8: every character of the output is in the accepted set (word
characters, space, `.`, `-`, `(`, `)`, `[`, `]`, with `_` counted among
word characters), the output contains no control character (code point
below 0x20 or equal to 0x7F), and it has no two consecutive spaces and no
two consecutive underscores. -/
theorem C8_sanitize_charset (s : String) :
    (sanitize_filename s).data.all
      (fun c => (isWordChar c || c == ' ' || c == '.' || c == '-' ||
                 c == '(' || c == ')' || c == '[' || c == ']') &&
                !(decide (c.toNat < 32) || c.toNat == 127)) = true ∧
    noTwoP (fun c => c == ' ') (sanitize_filename s).data = true ∧
    noTwoP (fun c => c == '_') (sanitize_filename s).data = true := by
  obtain ⟨_, _, h3, h4, h5, h6, _, _⟩ := sanitizeList_props s.data
  have hdata : (sanitize_filename s).data = sanitizeList s.data := rfl
  rw [hdata]
  refine ⟨?_, ?_, h6⟩
  · rw [List.all_eq_true]
    intro c hc
    exact kept_accepted (h3 c hc) (h4 c hc)
  · refine noTwoP_mono (fun c hq => ?_) h5
    rw [beq_iff_eq] at hq
    subst hq
    decide

/-! ### The claim about `get_current_pricing` -/

/-- C9: cost accounting is total and never propagates a failure: for
every model name (also ones absent from the table), all token counts and
any behaviour of the external `tokencost` provider, `get_current_pricing`
returns an estimate whose `total_cost` is `input_cost + output_cost`, and
whenever the provider is unavailable or raises, the result is an estimate
computed from the static `PRICING_CONFIG` table. -/
theorem C9_pricing_total_and_fallback (model_name : String)
    (prompt_tokens completion_tokens : ℕ) (texts : Option (String × String))
    (tc : TokencostOutcome) :
    ((get_current_pricing model_name prompt_tokens completion_tokens texts tc).total_cost =
      (get_current_pricing model_name prompt_tokens completion_tokens texts tc).input_cost +
      (get_current_pricing model_name prompt_tokens completion_tokens texts tc).output_cost) ∧
    ((tc = TokencostOutcome.importError ∨ ∃ m, tc = TokencostOutcome.raises m) →
      ∃ src, get_current_pricing model_name prompt_tokens completion_tokens texts tc =
        configEstimate model_name prompt_tokens completion_tokens src) := by
  cases tc with
  | importError =>
    exact ⟨rfl, fun _ => ⟨"config_fallback", rfl⟩⟩
  | raises m =>
    cases texts with
    | none => exact ⟨rfl, fun _ => ⟨"config_with_tokencost_available", rfl⟩⟩
    | some t => exact ⟨rfl, fun _ => ⟨"config_fallback", rfl⟩⟩
  | succeeds pc cc =>
    cases texts with
    | none =>
      refine ⟨rfl, fun h => ?_⟩
      rcases h with h | ⟨m, h⟩ <;> simp at h
    | some t =>
      refine ⟨rfl, fun h => ?_⟩
      rcases h with h | ⟨m, h⟩ <;> simp at h

theorem C9_pricing_total_and_fallback_witness :
    (TokencostOutcome.importError = TokencostOutcome.importError ∨
      ∃ m, TokencostOutcome.importError = TokencostOutcome.raises m) ∧
    (∃ src, get_current_pricing "gpt-4" 1000 2000 none TokencostOutcome.importError =
      configEstimate "gpt-4" 1000 2000 src) :=
  ⟨Or.inl rfl,
    (C9_pricing_total_and_fallback "gpt-4" 1000 2000 none
      TokencostOutcome.importError).2 (Or.inl rfl)⟩

/-! ### The claim about `format_examples` -/

theorem string_append_data (a b : String) : (a ++ b).data = a.data ++ b.data := rfl

theorem string_append_empty (a : String) : a ++ "" = a := by
  apply String.ext
  rw [string_append_data]
  exact List.append_nil _

theorem string_append_assoc (a b c : String) : a ++ b ++ c = a ++ (b ++ c) := by
  apply String.ext
  simp only [string_append_data]
  exact List.append_assoc _ _ _

theorem foldl_filter_join (q : String → Bool) (g : String → String) :
    ∀ (ls : List String) (a : String),
      ls.foldl (fun acc x => if q x then acc ++ g x else acc) a =
        a ++ joinStrings ((ls.filter q).map g) := by
  intro ls
  induction ls with
  | nil =>
    intro a
    rw [List.foldl_nil, List.filter_nil, List.map_nil]
    exact (string_append_empty a).symm
  | cons x xs ih =>
    intro a
    rw [List.foldl_cons, List.filter_cons]
    by_cases hq : q x = true
    · rw [if_pos hq, if_pos hq, ih, List.map_cons]
      show (a ++ g x) ++ joinStrings _ = a ++ (g x ++ joinStrings _)
      exact string_append_assoc _ _ _
    · rw [if_neg hq, if_neg hq, ih]

theorem arrowAt_dash {l : List Char} (h : arrowAt l = true) : '-' ∈ l := by
  cases l with
  | nil => simp [arrowAt] at h
  | cons c1 t1 =>
    cases t1 with
    | nil => simp [arrowAt] at h
    | cons c2 t2 =>
      cases t2 with
      | nil => simp [arrowAt] at h
      | cons c3 t3 =>
        cases t3 with
        | nil => simp [arrowAt] at h
        | cons c4 t4 =>
          unfold arrowAt at h
          simp only [Bool.and_eq_true, beq_iff_eq] at h
          have h2 : c2 = '-' := h.1.1.2
          subst h2
          exact List.mem_cons_of_mem _ (List.mem_cons_self _ _)

theorem hasArrow_dash {l : List Char} (h : hasArrow l = true) : '-' ∈ l := by
  induction l with
  | nil => simp [hasArrow] at h
  | cons a t ih =>
    rw [show hasArrow (a :: t) = (arrowAt (a :: t) || hasArrow t) from rfl,
      Bool.or_eq_true_iff] at h
    rcases h with h | h
    · exact arrowAt_dash h
    · exact List.mem_cons_of_mem a (ih h)

theorem all_of_dropWhile_eq_nil {p : Char → Bool} {l : List Char}
    (h : l.dropWhile p = []) : ∀ c ∈ l, p c = true := by
  induction l with
  | nil => intro c hc; simp at hc
  | cons a t ih =>
    by_cases hp : p a
    · rw [List.dropWhile_cons_of_pos hp] at h
      intro c hc
      rcases List.mem_cons.mp hc with h1 | h1
      · subst h1; exact hp
      · exact ih h c h1
    · rw [List.dropWhile_cons_of_neg hp] at h
      exact absurd h (by simp)

theorem pyStrip_ne_nil {l : List Char} (h : '-' ∈ l) : pyStrip l ≠ [] := by
  intro hnil
  unfold pyStrip at hnil
  rw [List.reverse_eq_nil_iff] at hnil
  have h3 : l.dropWhile isPySpace = [] := by
    cases hd : l.dropWhile isPySpace with
    | nil => rfl
    | cons a t =>
      have hhead := head?_dropWhile_false (l := l) (p := isPySpace)
        (by rw [hd]; rfl)
      have ha := all_of_dropWhile_eq_nil hnil a
        (List.mem_reverse.mpr (by rw [hd]; exact List.mem_cons_self a t))
      rw [ha] at hhead
      exact Bool.noConfusion hhead
  have h4 := all_of_dropWhile_eq_nil h3 '-' h
  exact absurd h4 (by decide)

/-- C10: `format_examples` returns the empty string exactly on inputs
that are empty or whitespace-only (those whose Python `strip()` is
empty); on every other input it returns the header followed by one
two-space-indented, stripped copy of each line of the stripped input that
contains the separator `" -> "`, in input order — lines without the
separator are dropped. -/
theorem C10_format_examples (s : String) :
    (pyStripS s = "" → format_examples s = "") ∧
    (pyStripS s ≠ "" → format_examples s =
      HEADER ++ joinStrings
        ((((pyStripS s).splitOn "\n").filter (fun line => hasArrow line.data)).map
          exampleLine)) := by
  constructor
  · intro h
    unfold format_examples
    rw [if_pos (Or.inr h)]
  · intro h
    have hs : ¬(s = "" ∨ pyStripS s = "") := by
      rintro (h1 | h1)
      · subst h1
        exact h rfl
      · exact h h1
    unfold format_examples
    rw [if_neg hs]
    have hfun : (fun (acc line : String) =>
        if (!(pyStripS line == "")) && hasArrow line.data then acc ++ exampleLine line
        else acc) = (fun (acc line : String) =>
        if hasArrow line.data then acc ++ exampleLine line else acc) := by
      funext acc line
      cases ha : hasArrow line.data with
      | false => simp [ha]
      | true =>
        have hne : pyStrip line.data ≠ [] := pyStrip_ne_nil (hasArrow_dash ha)
        have hbeq : (pyStripS line == "") = false := by
          rw [beq_eq_false_iff_ne]
          intro he
          exact hne (congrArg String.data he)
        rw [hbeq]
        rfl
    rw [hfun]
    exact foldl_filter_join _ _ _ _

theorem C10_format_examples_witness :
    pyStripS "doc1.pdf -> Invoice.pdf\nnote" ≠ "" ∧
    format_examples "doc1.pdf -> Invoice.pdf\nnote" =
      HEADER ++ joinStrings
        ((((pyStripS "doc1.pdf -> Invoice.pdf\nnote").splitOn "\n").filter
          (fun line => hasArrow line.data)).map exampleLine) :=
  ⟨by decide, (C10_format_examples "doc1.pdf -> Invoice.pdf\nnote").2 (by decide)⟩

